import Mathlib

/-!
Verification of the ply patch-management core (`plypatch`).

The development shallowly embeds the data model and the algorithms of the
source files `plypatch/__init__.py` and `plypatch/git/__init__.py`:

* pure helpers model the Python list/string/set primitives the code uses;
* the patch normalizer (`_fixup_patch` and its four steps) is embedded as a
  function on the list of lines obtained from `readlines()`, each line being
  its character list;
* the series-file store and `sync_patches`' series mutation are embedded as
  list transformations, with the file system (patch-file existence,
  `meaningful_diff`) abstracted as boolean oracles;
* the working-repo operations (`restore`, `rollback`, `save`, `abort`,
  `_resolve_conflict`, `status`, `_applied_patches`) are embedded as
  functions on an explicit working-repo state, with the outcomes of the
  `git am` child processes abstracted as oracles.

Strings manipulated character by character are represented as `List Char`
(`String` methods in Lean core are partly defined by well-founded recursion,
which does not evaluate inside the kernel; the list representation keeps
every definition executable by `decide`/`rfl`).
-/

namespace Ply

/-- A line of text (the characters of a Python `str`). -/
abbrev Line := List Char

/-! ## Python primitive helpers -/

/-- Python's whitespace set as used by `str.strip()`. -/
def pyIsSpace (c : Char) : Bool :=
  c = ' ' || c = '\t' || c = '\n' || c = '\r' || c = '\x0b' || c = '\x0c'

/-- Python `not line.strip()`: the line consists of whitespace only. -/
def pyIsBlank (l : Line) : Bool :=
  l.all pyIsSpace

/-- Python `line.strip()`: drop leading and trailing whitespace. -/
def pyStrip (l : Line) : Line :=
  ((l.dropWhile pyIsSpace).reverse.dropWhile pyIsSpace).reverse

/-- Python `list.insert(i, x)`: an index past the end appends. -/
def pyInsert (l : List α) (i : Nat) (a : α) : List α :=
  List.insertIdx (min i l.length) a l

/-- Python `list.remove(x)`: removes the first occurrence; `none` models the
`ValueError` raised when `x` is absent. -/
def pyRemove [DecidableEq α] (l : List α) (a : α) : Option (List α) :=
  if a ∈ l then some (l.erase a) else none

/-- Python `list.index(x)`: index of the first occurrence; `none` models the
`ValueError` raised when `x` is absent. -/
def pyIndex [DecidableEq α] (l : List α) (a : α) : Option Nat :=
  if a ∈ l then some (List.indexOf a l) else none

/-- Python `set.add`, modelling a set as a duplicate-free list kept in
insertion order (the algorithms proved below do not depend on the iteration
order of these sets). -/
def pySetAdd [DecidableEq α] (l : List α) (a : α) : List α :=
  if a ∈ l then l else l ++ [a]

/-- Python `needle in hay` for strings: substring containment. -/
def strContainsAux (needle : List Char) : List Char → Bool
  | [] => needle.isEmpty
  | c :: cs => needle.isPrefixOf (c :: cs) || strContainsAux needle cs

/-- Python `needle in hay`, the needle given as a string literal. -/
def strContains (needle : String) (hay : Line) : Bool :=
  strContainsAux needle.data hay

/-- Python `line.startswith(p)`. -/
def startsWith (p : String) (l : Line) : Bool :=
  p.data.isPrefixOf l

/-- Python `line.split(sep)` (single-character separator, no collapsing of
empty fields): auxiliary accumulator form. -/
def splitOnCharAux (sep : Char) : List Char → List Char → List (List Char)
  | [], acc => [acc.reverse]
  | c :: cs, acc =>
    if c = sep then acc.reverse :: splitOnCharAux sep cs []
    else splitOnCharAux sep cs (c :: acc)

/-- Python `line.split(sep)` for a single-character separator. -/
def splitOnChar (sep : Char) (l : List Char) : List (List Char) :=
  splitOnCharAux sep l []

/-- Python `sep.join(parts)` for a single-character separator. -/
def joinChar (sep : Char) (parts : List (List Char)) : List Char :=
  List.intercalate [sep] parts

/-- `os.path.basename` for the forward-slash paths ply manipulates: the part
of the path after the last `'/'`. -/
def basename (s : String) : String :=
  ⟨(s.data.reverse.takeWhile (· ≠ '/')).reverse⟩

/-! ## The patch normalizer (`_fixup_patch`, `plypatch/__init__.py:24-95`)

A patch file is represented as the list of lines returned by
`from_file.readlines()`: every line keeps its trailing `'\n'` (except
possibly the last). -/

/-- Hard-coded replacement for the SHA1 on the `From` line
(`FROM_SHA1_VALUE = 'ply'`). -/
def FROM_SHA1_VALUE : String := "ply"

/-- Hard-coded git version written into the signature line
(`PATCH_GIT_VERSION = '1.8.3'`). -/
def PATCH_GIT_VERSION : String := "1.8.3"

/-- Index of the first line starting with `"From"`; `none` models the
`Exception("Malformed patch: 'From' not found")`. -/
def findFromIdx : List Line → Option Nat
  | [] => none
  | l :: ls => if startsWith "From" l then some 0 else (findFromIdx ls).map (· + 1)

/-- `_replace_from_sha1`: replace the second space-separated field of the
first `From` line with `"ply"`. `none` models the exception when no `From`
line exists, or the `IndexError` on `parts[1]` when the line has no space. -/
def replaceFromSha1 (lines : List Line) : Option (List Line) :=
  (findFromIdx lines).bind fun i =>
    let parts := splitOnChar ' ' (lines.getD i [])
    if parts.length < 2 then none
    else some (lines.set i (joinChar ' ' (parts.set 1 FROM_SHA1_VALUE.data)))

/-- Reversed scan of `_replace_git_version`, over `lines.reverse`: find the
first (from the end) line whose first character is a digit and which contains
a `'.'`. `none` models both the "Git version not found" exception and the
`IndexError` that `line[0]` raises on an empty string. -/
def findVersionRevIdx : List Line → Option Nat
  | [] => none
  | l :: ls =>
    match l with
    | [] => none
    | c :: _ =>
      if c.isDigit && strContains "." l then some 0
      else (findVersionRevIdx ls).map (· + 1)

/-- `_replace_git_version`: rewrite the last version-looking line to
`'%s\n' % PATCH_GIT_VERSION`. -/
def replaceGitVersion (lines : List Line) : Option (List Line) :=
  (findVersionRevIdx lines.reverse).map fun r =>
    lines.set (lines.length - 1 - r) (PATCH_GIT_VERSION.data ++ ['\n'])

/-- `_remove_ply_patch_annotation`: delete every line containing
`"Ply-Patch:"` (collecting the match indexes and deleting them back to front
is the same as filtering). -/
def removePlyPatchLines (lines : List Line) : List Line :=
  lines.filter (fun l => !strContains "Ply-Patch:" l)

/-- Index of the first line starting with `"diff --git"`. -/
def findDiffGitIdx : List Line → Option Nat
  | [] => none
  | l :: ls => if startsWith "diff --git" l then some 0 else (findDiffGitIdx ls).map (· + 1)

/-- `_remove_trailing_extra_blank_lines_from_subject`: if the two lines just
above the first `diff --git` line are both blank, delete one of them. -/
def removeTrailingExtraBlankLinesFromSubject (lines : List Line) : List Line :=
  match findDiffGitIdx lines with
  | none => lines
  | some idx =>
    if idx < 2 then lines
    else if pyIsBlank (lines.getD (idx - 1) []) && pyIsBlank (lines.getD (idx - 2) []) then
      lines.eraseIdx (idx - 1)
    else lines

/-- `_fixup_patch`: the four normalization steps in source order. -/
def fixupPatch (lines : List Line) : Option (List Line) :=
  (replaceFromSha1 lines).bind fun l1 =>
    (replaceGitVersion l1).map fun l2 =>
      removeTrailingExtraBlankLinesFromSubject (removePlyPatchLines l2)

/-- A patch file with three consecutive blank lines immediately above the
first `diff --git` line; `readlines()` form. -/
def threeBlankPatch : List Line :=
  (["From abc Mon Sep 17\n", "Subject: Bar\n", "\n", "\n", "\n",
    "diff --git a/README b/README\n", "-- \n", "1.8.3.1.245\n", "\n"] :
   List String).map String.data

/-! ## The series store (`_non_recursive_series` / `_mutate_series_file`,
`plypatch/__init__.py:600-618` and `733-745`)

A series file is modelled as its character contents.  Iterating over a
Python file handle yields the lines, each keeping its trailing `'\n'`
(the last line may lack one). -/

/-- Split file contents into lines the way Python file iteration does:
each chunk keeps its `'\n'`; a last chunk without `'\n'` is yielded too. -/
def splitFileLinesAux : List Char → List Char → List Line
  | [], acc => if acc.isEmpty then [] else [acc.reverse]
  | c :: cs, acc =>
    if c = '\n' then (acc.reverse ++ ['\n']) :: splitFileLinesAux cs []
    else splitFileLinesAux cs (c :: acc)

/-- The lines of a file's contents (Python `for line in f`). -/
def splitFileLines (content : List Char) : List Line :=
  splitFileLinesAux content []

/-- `PatchRepo._non_recursive_series`: strip each line, skip blanks, keep
order. -/
def nonRecursiveSeries (content : List Char) : List Line :=
  ((splitFileLines content).map pyStrip).filter (fun l => !l.isEmpty)

/-- The write-back phase of `PatchRepo._mutate_series_file`:
`f.write('%s\n' % patch_name)` for each entry. -/
def writeSeriesFile (entries : List Line) : List Char :=
  (entries.map (fun e => e ++ ['\n'])).flatten

/-! ## Patch classification and `sync_patches`' series mutation
(`PatchRepo._determine_what_changed` / `PatchRepo.sync_patches`,
`plypatch/__init__.py:620-709`)

Patch names and paths are plain `String`s here (only compared for equality,
never traversed).  Two oracles abstract the file system:

* `fs n` models `utils.path_exists_case_sensitive(os.path.join(self.path, n))`
  — whether the patch file named `n` already exists in the patch repo;
* `md n` models `utils.meaningful_diff(source_lookup[n], dest_path)` — whether
  the freshly generated patch named `n` differs meaningfully from the stored
  copy (within one call both arguments are determined by the basename `n`).

The series file is taken flat (no `-i` include entries): the source's
`_mutate_series_file` carries a FIXME that recursive series files are not
supported, and on a flat series `PatchRepo.series` and
`_non_recursive_series` agree. -/

/-- The classification loop of `_determine_what_changed` over the source
paths: `added` if no stored copy exists, else `updated` or `skipped` by
meaningful difference. -/
def classifySources (fs md : String → Bool) :
    List String → List String × List String × List String →
    List String × List String × List String
  | [], acc => acc
  | s :: ss, (added, updated, skipped) =>
    let n := basename s
    if fs n then
      if md n then classifySources fs md ss (added, pySetAdd updated n, skipped)
      else classifySources fs md ss (added, updated, pySetAdd skipped n)
    else classifySources fs md ss (pySetAdd added n, updated, skipped)

/-- The series prefix walked by the "skip all patches up to
`parent_patch_name`" loop: every entry up to and including the first
occurrence of `parent` (all entries when `parent` is absent — the loop's
`break` never fires then). -/
def takeThroughParent (parent : String) : List String → List String
  | [] => []
  | e :: es => e :: (if e = parent then [] else takeThroughParent parent es)

/-- `PatchRepo._determine_what_changed`: returns
`(added, updated, skipped, removed)`. -/
def determineWhatChanged (fs md : String → Bool) (sourcePaths : List String)
    (parentPatchName : Option String) (entries : List String) :
    List String × List String × List String × List String :=
  let cls := classifySources fs md sourcePaths ([], [], [])
  let added := cls.1
  let updated := cls.2.1
  let skipped := match parentPatchName with
    | none => cls.2.2
    | some p => (takeThroughParent p entries).foldl pySetAdd cls.2.2
  let removed := entries.dedup.filter
    (fun n => !(decide (n ∈ added)) && !(decide (n ∈ updated)) && !(decide (n ∈ skipped)))
  (added, updated, skipped, removed)

/-- The `entries.remove(patch_name)` loop over the `removed` set (Python's
`list.remove` raises when the entry is absent). -/
def removeAll (entries : List String) : List String → Option (List String)
  | [] => some entries
  | r :: rs => (pyRemove entries r).bind fun e => removeAll e rs

/-- The insertion loop of `sync_patches`' series mutation: for the `idx`-th
source path, drop the basename from its old position when present and insert
it at `base + idx`.  `pos` carries `base + idx`. -/
def spliceLoop (pos : Nat) : List String → List String → List String
  | [], entries => entries
  | s :: ss, entries =>
    let n := basename s
    let e' := if n ∈ entries then entries.erase n else entries
    spliceLoop (pos + 1) ss (pyInsert e' pos n)

/-- The series-file mutation performed by `PatchRepo.sync_patches` (the
`with self._mutate_series_file() as entries:` block together with the
classification feeding it; the file moves/removals do not touch the series
and are omitted).  `none` models a `ValueError` escaping from
`entries.remove` or `entries.index`. -/
def syncPatchesSeries (fs md : String → Bool) (sourcePaths : List String)
    (parentPatchName : Option String) (entries : List String) :
    Option (List String) :=
  let removed := (determineWhatChanged fs md sourcePaths parentPatchName entries).2.2.2
  (removeAll entries removed).bind fun e1 =>
    (match parentPatchName with
     | some p => (pyIndex e1 p).map (· + 1)
     | none => some 0).bind fun base =>
      some (spliceLoop base sourcePaths e1)

/-- The series contents `sync_patches` is specified to produce: the source
basenames as a contiguous block immediately after `parentPatchName` (at
position 0 when it is null), earlier occurrences of those names removed. -/
def expectedSeries (parentPatchName : Option String) (entries names : List String) :
    List String :=
  match parentPatchName with
  | none => names
  | some p => (entries.takeWhile (· ≠ p)).filter (fun n => n ∉ names) ++ p :: names

/-! ## The working repo (`WorkingRepo`, `plypatch/__init__.py:108-562`)

A working-repo commit is its hash together with the result of matching
`RE_PATCH_IDENTIFIER` (`'Ply-Patch: (.*)'`) against its message
(`_get_patch_annotation`); `none` when the pattern does not occur.  The
commit list is ordered newest first, as `git log` walks it. -/

deriving instance DecidableEq for Except

structure Commit where
  hash : String
  plyPatch : Option String
deriving DecidableEq, Repr

/-- Python truthiness of an optional string (`if patch_name:`,
`if not email:`): present and non-empty. -/
def pyTruthy : Option String → Bool
  | none => false
  | some s => !(s = "")

/-- The mutable working-repo/patch-repo state the embedded operations act
on.  File-system artifacts are explicit fields; `git` side effects are
modelled on `history`. -/
structure WRState where
  /-- commits, newest first (`git log` order) -/
  history : List Commit
  /-- contents of `<W>/.patch-conflict` when it exists -/
  sentinel : Option String
  /-- contents of `<W>/.restore-stats` when it exists (updated, removed) -/
  restoreStats : Option (Nat × Nat)
  /-- `.git/rebase-apply` exists (`Repo.rebase_in_progress`) -/
  rebaseApply : Bool
  /-- `diff-index HEAD` reports changes (`Repo.uncommitted_changes`) -/
  uncommitted : Bool
  /-- git config `user.email` (`none` when unset) -/
  userEmail : Option String
  /-- git config `user.name` -/
  userName : Option String
  /-- the patch repo has uncommitted staged changes -/
  patchRepoUncommitted : Bool
  /-- the patch repo's series, flat -/
  series : List String
deriving DecidableEq, Repr

/-- The error kinds the embedded operations surface (`plypatch/exc.py`,
`plypatch/git/exc.py`; `valueError` is Python's builtin `ValueError`,
`osError` the builtin `OSError` from `os.unlink` on a missing file,
`gitError` a `GitException` from a failing `git` invocation). -/
inductive PlyError where
  | noLinkedPatchRepo
  | noPatchesApplied
  | nothingToResolve
  | pathNotFound
  | uncommittedChanges
  | restoreInProgress
  | gitConfigRequired (key : String)
  | patchDidNotApplyCleanly
  | patchBlobSHA1Invalid
  | patchAlreadyApplied
  | valueError
  | osError
  | gitError
deriving DecidableEq, Repr

/-- `WorkingRepo._applied_patches`' walk: `cs` is the commit list from the
current skip position, `bound` the remaining `new_upper_bound`, `acc` the
`applied` list collected so far.  Mirrors the loop's break conditions. -/
def appliedPatchesGo : List Commit → Nat → List (String × String) →
    List (String × String)
  | [], _, acc => acc
  | c :: rest, bound, acc =>
    if pyTruthy c.plyPatch then
      appliedPatchesGo rest bound (acc ++ [(c.hash, c.plyPatch.getD "")])
    else if !acc.isEmpty then acc
    else if 0 < bound then appliedPatchesGo rest (bound - 1) acc
    else acc

/-- `WorkingRepo._applied_patches(new_upper_bound)`. -/
def appliedPatches (history : List Commit) (bound : Nat) : List (String × String) :=
  appliedPatchesGo history bound []

/-- The default `new_upper_bound`. -/
def NEW_UPPER_BOUND : Nat := 50

/-- The hash of the parent commit of the commit with hash `h`
(`git log <h>^ -1`); `none` when `h` has no parent or is unknown. -/
def parentHash (history : List Commit) (h : String) : Option String :=
  match history.dropWhile (fun c => !(c.hash = h)) with
  | _ :: parent :: _ => some parent.hash
  | _ => none

/-- `WorkingRepo._last_upstream_commit_hash`: `ok none` when no patches are
applied; otherwise the parent of the oldest applied commit, `gitError` when
the `git log <hash>^` call would fail. -/
def lastUpstreamCommitHash (history : List Commit) :
    Except PlyError (Option String) :=
  match (appliedPatches history NEW_UPPER_BOUND).getLast? with
  | none => .ok none
  | some (lastAppliedHash, _) =>
    match parentHash history lastAppliedHash with
    | some h => .ok (some h)
    | none => .error .gitError

/-- `git reset --hard <h>`: the history becomes the suffix starting at the
commit with hash `h`; uncommitted changes are discarded. -/
def resetHardTo (st : WRState) (h : String) : WRState :=
  { st with history := st.history.dropWhile (fun c => !(c.hash = h)),
            uncommitted := false }

/-- `WorkingRepo.rollback(lose_uncommitted)`. -/
def rollback (st : WRState) (loseUncommitted : Bool) :
    WRState × Except PlyError Unit :=
  if st.uncommitted && !loseUncommitted then (st, .error .uncommittedChanges)
  else
    match lastUpstreamCommitHash st.history with
    | .error e => (st, .error e)
    | .ok none => ({ st with uncommitted := false }, .ok ())
    | .ok (some h) => (resetHardTo st h, .ok ())

/-- `WorkingRepo.status`. -/
def status (st : WRState) : String :=
  if st.sentinel.isSome then "restore-in-progress"
  else if (appliedPatches st.history NEW_UPPER_BOUND).length = 0 then
    "no-patches-applied"
  else "all-patches-applied"

/-- Outcome of one `git am <patch> --3way` child process, as classified by
`git.Repo.am` (`plypatch/git/__init__.py:35-73`): success (with the new
commit's hash), `PatchAlreadyApplied`, `PatchDidNotApplyCleanly`, or
`PatchBlobSHA1Invalid`. -/
inductive AmOutcome where
  | clean (newHash : String)
  | alreadyApplied
  | didNotApply
  | blobInvalid
deriving DecidableEq, Repr

/-- `WorkingRepo._update_restore_stats(delta_updated, delta_removed)`:
read the stats file (defaulting to `0 0`), add the deltas, write back. -/
def bumpStats (st : WRState) (deltaUpdated deltaRemoved : Nat) : WRState :=
  let (u, r) := st.restoreStats.getD (0, 0)
  { st with restoreStats := some (u + deltaUpdated, r + deltaRemoved) }

/-- `PatchRepo.remove_patch`: `git rm` the file (not modelled) and drop the
name from the series; `none` models the `ValueError` from `entries.remove`
when the name is not in the series. -/
def removePatchFromSeries (st : WRState) (p : String) : Option WRState :=
  (pyRemove st.series p).map fun s => { st with series := s }

/-- The patch-application loop of `WorkingRepo.restore`: walk the series
snapshot, skipping patches already applied; `git am` each remaining patch.
On a conflict write the sentinel, bump the updated count and surface
`PatchDidNotApplyCleanly`; on "already applied" remove the patch from the
patch repo and bump the removed count; on success the new annotated commit
is on top of the history (`_add_patch_annotation`). -/
def restoreLoop (amApply : String → AmOutcome) (appliedNames : List String) :
    List String → WRState → WRState × Except PlyError Unit
  | [], st => (st, .ok ())
  | p :: rest, st =>
    if p ∈ appliedNames then restoreLoop amApply appliedNames rest st
    else
      match amApply p with
      | .clean h =>
        restoreLoop amApply appliedNames rest
          { st with history := ⟨h, some p⟩ :: st.history }
      | .alreadyApplied =>
        match removePatchFromSeries st p with
        | none => (st, .error .valueError)
        | some st' => restoreLoop amApply appliedNames rest (bumpStats st' 0 1)
      | .didNotApply =>
        (bumpStats { st with sentinel := some p } 1 0,
         .error .patchDidNotApplyCleanly)
      | .blobInvalid => (st, .error .patchBlobSHA1Invalid)

/-- `WorkingRepo.restore`: the precondition checks in source order
(`_ensure_name_and_email_set`, `rebase_in_progress`,
`uncommitted_changes`), then the reentrant loop over the series snapshot,
then the endgame (delete restore-stats; commit the patch repo when it has
staged changes, which needs `_last_upstream_commit_hash` for the
`Ply-Based-On` annotation). -/
def restore (amApply : String → AmOutcome) (st : WRState) :
    WRState × Except PlyError Unit :=
  if !pyTruthy st.userEmail then (st, .error (.gitConfigRequired "user.email"))
  else if !pyTruthy st.userName then (st, .error (.gitConfigRequired "user.name"))
  else if st.rebaseApply then (st, .error .restoreInProgress)
  else if st.uncommitted then (st, .error .uncommittedChanges)
  else
    let applied := (appliedPatches st.history NEW_UPPER_BOUND).map Prod.snd
    match restoreLoop amApply applied st.series st with
    | (st1, .error e) => (st1, .error e)
    | (st1, .ok ()) =>
      let st2 := { st1 with restoreStats := none }
      if !st2.patchRepoUncommitted then (st2, .ok ())
      else
        match lastUpstreamCommitHash st2.history with
        | .error e => (st2, .error e)
        | .ok _basedOn => ({ st2 with patchRepoUncommitted := false }, .ok ())

/-- The `git am` subcommand used by `_resolve_conflict`. -/
inductive AmFinish where
  | resolved
  | skipCur
  | abortCur
deriving DecidableEq, Repr

/-- `WorkingRepo._resolve_conflict(method)`: require the sentinel, run the
`git am` subcommand (`amFinish` gives its outcome: `none` is success), then
read and delete the sentinel, returning the conflicted patch name. -/
def resolveConflict (amFinish : AmFinish → Option PlyError) (st : WRState)
    (m : AmFinish) : WRState × Except PlyError String :=
  match st.sentinel with
  | none => (st, .error .nothingToResolve)
  | some p =>
    match amFinish m with
    | some e => (st, .error e)
    | none => ({ st with sentinel := none }, .ok p)

/-- `WorkingRepo.abort`: `_resolve_conflict('abort')`, delete the
restore-stats file (`os.unlink` raises `OSError` when it does not exist),
then `rollback(lose_uncommitted=True)`. -/
def abortRestore (amFinish : AmFinish → Option PlyError) (st : WRState) :
    WRState × Except PlyError Unit :=
  match resolveConflict amFinish st .abortCur with
  | (st1, .error e) => (st1, .error e)
  | (st1, .ok _) =>
    match st1.restoreStats with
    | none => (st1, .error .osError)
    | some _ => rollback { st1 with restoreStats := none } true

/-- Python `'..' in since` on `String`s. -/
def strContainsS (needle s : String) : Bool :=
  strContainsAux needle.data s.data

/-- `WorkingRepo.save(since)`: the guards in source order — uncommitted
changes in either repo, defaulting of a falsy `since` to
`_last_upstream_commit_hash`, `NoPatchesApplied` when that is absent, then
the `'..' in since` `ValueError`.  Everything after the guards
(`_create_patches`, `sync_patches`, the reset and re-restore) mutates both
repositories and is abstracted as `restOfSave`. -/
def save (restOfSave : WRState → String → WRState × Except PlyError Unit)
    (st : WRState) (since : Option String) : WRState × Except PlyError Unit :=
  if st.uncommitted || st.patchRepoUncommitted then
    (st, .error .uncommittedChanges)
  else
    match (match since with
           | some s =>
             if s = "" then lastUpstreamCommitHash st.history else .ok (some s)
           | none => lastUpstreamCommitHash st.history : Except PlyError (Option String)) with
    | .error e => (st, .error e)
    | .ok none => (st, .error .noPatchesApplied)
    | .ok (some s) =>
      if strContainsS ".." s then (st, .error .valueError)
      else restOfSave st s

/-! ## Shared lemmas -/

theorem mem_pySetAdd [DecidableEq α] {l : List α} {a b : α} :
    b ∈ pySetAdd l a ↔ b ∈ l ∨ b = a := by
  unfold pySetAdd
  split
  · next h =>
    refine ⟨Or.inl, ?_⟩
    rintro (hb | rfl)
    · exact hb
    · exact h
  · simp [List.mem_append]

theorem mem_foldl_pySetAdd [DecidableEq α] {xs : List α} {l : List α} {b : α} :
    b ∈ xs.foldl pySetAdd l ↔ b ∈ l ∨ b ∈ xs := by
  induction xs generalizing l with
  | nil => simp
  | cons x xs ih =>
    simp only [List.foldl_cons, ih, mem_pySetAdd, List.mem_cons]
    tauto

/-! ## C2: idempotence of the patch normalizer -/

/-- **C2.** The spec claims `normalize(normalize(x)) == normalize(x)` even on
inputs with three or more consecutive blank lines immediately before the
first `diff --git` line.  On such an input the fourth normalization step
(whose docstring says the subject's trailing whitespace is normalized "by
only allowing a single trailing blank line") deletes exactly one blank line
per application, so the second application produces a different result: the
normalizer is not idempotent there, contradicting both the spec's idempotence
property and the step's own docstring. -/
theorem fixup_patch_not_idempotent_on_three_blanks :
    (fixupPatch threeBlankPatch).bind fixupPatch ≠ fixupPatch threeBlankPatch := by
  decide

/-! ## C9: a failed resolve/skip/abort keeps the conflict state -/

/-- **C9.** In `_resolve_conflict` (backing `resolve`, `skip` and `abort`)
the `git am` subcommand runs before the sentinel file is read and deleted:
if it raises, the call fails with that error, the state — in particular the
sentinel — is unchanged, and `status` still reports `restore-in-progress`. -/
theorem resolve_conflict_failure_keeps_sentinel
    (amFinish : AmFinish → Option PlyError) (st : WRState) (m : AmFinish)
    (p : String) (e : PlyError)
    (hs : st.sentinel = some p) (hf : amFinish m = some e) :
    resolveConflict amFinish st m = (st, .error e) ∧
    status st = "restore-in-progress" := by
  refine ⟨?_, ?_⟩
  · unfold resolveConflict
    rw [hs, hf]
  · unfold status
    rw [hs]
    rfl

/-- Witness for C9 at a concrete mid-conflict state and a failing
`git am --resolved`. -/
theorem resolve_conflict_failure_keeps_sentinel_witness :
    resolveConflict (fun _ => some .gitError)
        ⟨[⟨"u1", none⟩], some "foo.patch", some (1, 0), false, false,
         some "dev@example.com", some "dev", false, ["foo.patch"]⟩
        .resolved =
      (⟨[⟨"u1", none⟩], some "foo.patch", some (1, 0), false, false,
        some "dev@example.com", some "dev", false, ["foo.patch"]⟩,
       .error .gitError) ∧
    status
        ⟨[⟨"u1", none⟩], some "foo.patch", some (1, 0), false, false,
         some "dev@example.com", some "dev", false, ["foo.patch"]⟩ =
      "restore-in-progress" :=
  resolve_conflict_failure_keeps_sentinel _ _ _ "foo.patch" .gitError rfl rfl

/-! ## C4: rollback on an empty applied region -/

/-- **C4, counterexample.** The claim says rollback fails with
`NoPatchesApplied` whenever no commit carries a `Ply-Patch` annotation.  In
the state below no patch is applied, yet `rollback` succeeds (it hard-resets
to `HEAD`): it raises nothing at all. -/
theorem rollback_no_patches_counterexample :
    appliedPatches [⟨"u1", none⟩] NEW_UPPER_BOUND = [] ∧
    (rollback
        ⟨[⟨"u1", none⟩], none, none, false, false,
         some "dev@example.com", some "dev", false, []⟩ false).2 =
      .ok () := by
  decide

/-- **C4, amended.** `rollback` never raises `NoPatchesApplied` (only `save`
does).  When region A is empty — `_applied_patches` finds no annotated
commit — and there are no uncommitted changes to protect (or
`lose_uncommitted` is passed), rollback succeeds, performing the
`reset('HEAD', hard=True)` branch: the history is unchanged and uncommitted
changes are dropped. -/
theorem rollback_empty_applied_resets_head (st : WRState) (lose : Bool)
    (hA : appliedPatches st.history NEW_UPPER_BOUND = [])
    (hu : st.uncommitted = false ∨ lose = true) :
    rollback st lose = ({ st with uncommitted := false }, .ok ()) ∧
    ∀ st' lose', (rollback st' lose').2 ≠ .error .noPatchesApplied := by
  constructor
  · unfold rollback
    have hcond : (st.uncommitted && !lose) = false := by
      rcases hu with h | h <;> simp [h]
    rw [hcond]
    simp only [Bool.false_eq_true, if_false]
    unfold lastUpstreamCommitHash
    rw [hA]
    rfl
  · intro st' lose'
    unfold rollback
    split
    · simp
    · unfold lastUpstreamCommitHash
      rcases h : (appliedPatches st'.history NEW_UPPER_BOUND).getLast? with _ | ⟨lh, ln⟩
      · simp
      · rcases hp : parentHash st'.history lh with _ | ph <;> simp [hp, resetHardTo]

/-- Witness for C4 at a concrete annotation-free history. -/
theorem rollback_empty_applied_resets_head_witness :
    rollback
        ⟨[⟨"u1", none⟩, ⟨"u0", none⟩], none, none, false, false,
         some "dev@example.com", some "dev", false, []⟩ false =
      (⟨[⟨"u1", none⟩, ⟨"u0", none⟩], none, none, false, false,
        some "dev@example.com", some "dev", false, []⟩, .ok ()) :=
  (rollback_empty_applied_resets_head _ false (by decide) (Or.inl rfl)).1

/-! ## C10: save rejects a `..` range -/

/-- **C10, counterexample.** The claim says `save` raises `ValueError` for
*every* explicitly supplied `since` containing `".."`.  But the
uncommitted-changes guard runs first: with uncommitted changes in the
working repo, `save` raises `UncommittedChanges` instead, whatever rest of
the operation is plugged in. -/
theorem save_dotdot_counterexample :
    strContainsS ".." "HEAD~3..HEAD" = true ∧
    save (fun st _ => (st, .ok ()))
        ⟨[⟨"u1", none⟩], none, none, false, true,
         some "dev@example.com", some "dev", false, []⟩
        (some "HEAD~3..HEAD") =
      (⟨[⟨"u1", none⟩], none, none, false, true,
        some "dev@example.com", some "dev", false, []⟩,
       .error .uncommittedChanges) := by
  decide

/-- **C10, amended.** When neither repository has uncommitted changes,
`save` with an explicitly supplied, non-empty `since` containing `".."`
raises `ValueError` and returns the state unchanged, for every possible
remainder of the operation: the error fires before `_create_patches`
generates any patch file and before either repository is mutated. -/
theorem save_dotdot_value_error
    (restOfSave : WRState → String → WRState × Except PlyError Unit)
    (st : WRState) (s : String)
    (h1 : st.uncommitted = false) (h2 : st.patchRepoUncommitted = false)
    (h3 : strContainsS ".." s = true) :
    save restOfSave st (some s) = (st, .error .valueError) := by
  have hs : ¬(s = "") := by
    intro h
    rw [h] at h3
    exact absurd h3 (by decide)
  unfold save
  rw [h1, h2]
  simp only [Bool.or_self, Bool.false_eq_true, if_false]
  rw [if_neg hs]
  simp only [h3, if_true]

/-! ## C3: when restore raises `RestoreInProgress` -/

theorem restoreLoop_ne_restoreInProgress (amApply : String → AmOutcome)
    (applied : List String) (series : List String) (st : WRState) :
    (restoreLoop amApply applied series st).2 ≠ .error .restoreInProgress := by
  induction series generalizing st with
  | nil => simp [restoreLoop]
  | cons p rest ih =>
    unfold restoreLoop
    split
    · exact ih st
    · rcases amApply p with h | _ | _ | _
      · exact ih _
      · rcases removePatchFromSeries st p with _ | st' <;> simp only []
        · simp
        · exact ih _
      · simp
      · simp

theorem lastUpstream_shape (history : List Commit) :
    lastUpstreamCommitHash history = .error .gitError ∨
    ∃ o, lastUpstreamCommitHash history = .ok o := by
  unfold lastUpstreamCommitHash
  rcases hgl : (appliedPatches history NEW_UPPER_BOUND).getLast? with _ | ⟨lh, _⟩
  · exact Or.inr ⟨none, rfl⟩
  · rcases hph : parentHash history lh with _ | ph <;> simp [hph]

/-- **C3, counterexample.** The claim ties `RestoreInProgress` to the
conflict sentinel `<W>/.patch-conflict`.  The code instead raises it from
`rebase_in_progress()`, which tests `.git/rebase-apply`.  In the state below
the sentinel exists but no rebase is in progress, and restore completes
without raising `RestoreInProgress` at all. -/
theorem restore_sentinel_counterexample :
    (WRState.sentinel
        ⟨[⟨"u1", none⟩], some "foo.patch", none, false, false,
         some "dev@example.com", some "dev", false, []⟩).isSome = true ∧
    (restore (fun _ => .clean "h0")
        ⟨[⟨"u1", none⟩], some "foo.patch", none, false, false,
         some "dev@example.com", some "dev", false, []⟩).2 =
      .ok () := by
  decide

/-- **C3, amended.** With `user.name`/`user.email` configured, `restore`
raises `RestoreInProgress` **iff** `.git/rebase-apply` exists
(`Repo.rebase_in_progress`), independently of the conflict sentinel: no
other part of restore can produce that error. -/
theorem restore_rip_iff_rebase_apply (amApply : String → AmOutcome)
    (st : WRState)
    (he : pyTruthy st.userEmail = true) (hn : pyTruthy st.userName = true) :
    (restore amApply st).2 = .error .restoreInProgress ↔
      st.rebaseApply = true := by
  unfold restore
  rw [he, hn]
  simp only [Bool.not_true, Bool.false_eq_true, if_false]
  by_cases hr : st.rebaseApply = true
  · simp [hr]
  · simp only [Bool.not_eq_true] at hr
    rw [hr]
    simp only [Bool.false_eq_true, if_false, iff_false]
    split
    · simp
    · rcases hl : restoreLoop amApply
          ((appliedPatches st.history NEW_UPPER_BOUND).map Prod.snd)
          st.series st with ⟨st1, r⟩
      have hne := restoreLoop_ne_restoreInProgress amApply
        ((appliedPatches st.history NEW_UPPER_BOUND).map Prod.snd) st.series st
      rw [hl] at hne
      rcases r with e | u
      · simpa using hne
      · rcases u
        simp only []
        split
        · simp
        · rcases lastUpstream_shape
              { st1 with restoreStats := none }.history with h | ⟨o, h⟩ <;>
            rw [h] <;> simp

/-- Witness for C3 at a concrete state with a rebase in progress. -/
theorem restore_rip_iff_rebase_apply_witness :
    (restore (fun _ => .clean "h0")
        ⟨[⟨"u1", none⟩], none, none, true, false,
         some "dev@example.com", some "dev", false, []⟩).2 =
      .error .restoreInProgress :=
  (restore_rip_iff_rebase_apply (fun _ => .clean "h0")
    ⟨[⟨"u1", none⟩], none, none, true, false,
     some "dev@example.com", some "dev", false, []⟩ rfl rfl).mpr rfl

/-! ## C8: abort clears the sentinel and the stats file and resets hard -/

/-- **C8.** From any state with the conflict sentinel present, when
`abort()` returns successfully the resulting state has neither the conflict
sentinel nor the restore-stats file, carries no uncommitted changes, and the
history was hard-reset to the last upstream hash when applied patches
remained (or left at `HEAD` when none were applied). -/
theorem abort_clears_conflict_state (amFinish : AmFinish → Option PlyError)
    (st st' : WRState)
    (hs : st.sentinel.isSome = true)
    (hres : abortRestore amFinish st = (st', .ok ())) :
    st'.sentinel = none ∧ st'.restoreStats = none ∧ st'.uncommitted = false ∧
    ((lastUpstreamCommitHash st.history = .ok none ∧
        st'.history = st.history) ∨
      (∃ h, lastUpstreamCommitHash st.history = .ok (some h) ∧
        st'.history = st.history.dropWhile (fun c => !(c.hash = h)))) := by
  rcases hsent : st.sentinel with _ | p
  · rw [hsent] at hs
    simp at hs
  · unfold abortRestore resolveConflict at hres
    rw [hsent] at hres
    rcases ham : amFinish .abortCur with _ | e
    · rw [ham] at hres
      simp only [] at hres
      rcases hstats : st.restoreStats with _ | uv
      · rw [hstats] at hres
        simp at hres
      · rw [hstats] at hres
        unfold rollback at hres
        simp only [Bool.not_true, Bool.and_false, Bool.false_eq_true,
          if_false] at hres
        rcases hlu : lastUpstreamCommitHash st.history with e | o
        · rw [hlu] at hres
          simp at hres
        · rw [hlu] at hres
          rcases o with _ | h
          · simp only [Prod.mk.injEq] at hres
            rw [← hres.1]
            exact ⟨rfl, rfl, rfl, Or.inl ⟨rfl, rfl⟩⟩
          · simp only [resetHardTo, Prod.mk.injEq] at hres
            rw [← hres.1]
            exact ⟨rfl, rfl, rfl, Or.inr ⟨h, rfl, rfl⟩⟩
    · rw [ham] at hres
      simp at hres

/-- Witness for C8: abort from a concrete mid-conflict state with one
applied patch; the history is reset to the upstream commit. -/
theorem abort_clears_conflict_state_witness :
    (WRState.sentinel
        ⟨[⟨"a1", some "p1.patch"⟩, ⟨"u1", none⟩], some "p2.patch",
         some (1, 0), false, true, some "dev@example.com", some "dev",
         false, ["p1.patch", "p2.patch"]⟩) = none ∨
    ((⟨[⟨"u1", none⟩], none, none, false, false, some "dev@example.com",
       some "dev", false, ["p1.patch", "p2.patch"]⟩ : WRState).sentinel = none ∧
     (⟨[⟨"u1", none⟩], none, none, false, false, some "dev@example.com",
       some "dev", false, ["p1.patch", "p2.patch"]⟩ : WRState).restoreStats = none ∧
     (⟨[⟨"u1", none⟩], none, none, false, false, some "dev@example.com",
       some "dev", false, ["p1.patch", "p2.patch"]⟩ : WRState).uncommitted = false ∧
     ((lastUpstreamCommitHash
          [⟨"a1", some "p1.patch"⟩, ⟨"u1", none⟩] = .ok none ∧
        (⟨[⟨"u1", none⟩], none, none, false, false, some "dev@example.com",
          some "dev", false, ["p1.patch", "p2.patch"]⟩ : WRState).history =
          [⟨"a1", some "p1.patch"⟩, ⟨"u1", none⟩]) ∨
      (∃ h, lastUpstreamCommitHash
          [⟨"a1", some "p1.patch"⟩, ⟨"u1", none⟩] = .ok (some h) ∧
        (⟨[⟨"u1", none⟩], none, none, false, false, some "dev@example.com",
          some "dev", false, ["p1.patch", "p2.patch"]⟩ : WRState).history =
          List.dropWhile (fun c => !(c.hash = h))
            [⟨"a1", some "p1.patch"⟩, ⟨"u1", none⟩]))) :=
  Or.inr
    (abort_clears_conflict_state (fun _ => none)
      ⟨[⟨"a1", some "p1.patch"⟩, ⟨"u1", none⟩], some "p2.patch", some (1, 0),
       false, true, some "dev@example.com", some "dev", false,
       ["p1.patch", "p2.patch"]⟩
      ⟨[⟨"u1", none⟩], none, none, false, false, some "dev@example.com",
       some "dev", false, ["p1.patch", "p2.patch"]⟩
      rfl (by decide))

/-- Witness for C10 at a concrete clean state. -/
theorem save_dotdot_value_error_witness :
    save (fun st _ => (st, .ok ()))
        ⟨[⟨"u1", none⟩], none, none, false, false,
         some "dev@example.com", some "dev", false, []⟩
        (some "a..b") =
      (⟨[⟨"u1", none⟩], none, none, false, false,
        some "dev@example.com", some "dev", false, []⟩,
       .error .valueError) :=
  save_dotdot_value_error _ _ "a..b" rfl rfl (by decide)

/-! ## C6: `_applied_patches` returns exactly region A -/

/-- The hash/name pair `_applied_patches` collects for an annotated commit. -/
def appliedPair (c : Commit) : String × String :=
  (c.hash, c.plyPatch.getD "")

theorem appliedPatchesGo_stop (U : List Commit) (b : Nat)
    (acc : List (String × String)) (hacc : acc ≠ [])
    (hU : ∀ c ∈ U, pyTruthy c.plyPatch = false) :
    appliedPatchesGo U b acc = acc := by
  cases U with
  | nil => rfl
  | cons u rest =>
    unfold appliedPatchesGo
    rw [hU u (List.mem_cons_self u rest)]
    simp only [Bool.false_eq_true, if_false, List.isEmpty_eq_true]
    rw [if_pos (by simpa using hacc)]

theorem appliedPatchesGo_annotated (A U : List Commit) (b : Nat)
    (acc : List (String × String))
    (hA : ∀ c ∈ A, pyTruthy c.plyPatch = true)
    (hU : ∀ c ∈ U, pyTruthy c.plyPatch = false)
    (hne : acc ≠ [] ∨ A ≠ []) :
    appliedPatchesGo (A ++ U) b acc = acc ++ A.map appliedPair := by
  induction A generalizing acc with
  | nil =>
    rcases hne with h | h
    · simpa using appliedPatchesGo_stop U b acc h hU
    · exact absurd rfl h
  | cons a A' ih =>
    rw [List.cons_append]
    unfold appliedPatchesGo
    rw [hA a (List.mem_cons_self a A')]
    simp only [if_true]
    rw [ih (acc ++ [(a.hash, a.plyPatch.getD "")])
        (fun c hc => hA c (List.mem_cons_of_mem a hc)) (Or.inl (by simp))]
    simp [appliedPair]

theorem appliedPatchesGo_all_unannotated (U : List Commit) (b : Nat)
    (hU : ∀ c ∈ U, pyTruthy c.plyPatch = false) :
    appliedPatchesGo U b [] = [] := by
  induction U generalizing b with
  | nil => rfl
  | cons u rest ih =>
    unfold appliedPatchesGo
    rw [hU u (List.mem_cons_self u rest)]
    simp only [Bool.false_eq_true, if_false, List.isEmpty_nil, Bool.not_true,
      if_false]
    split
    · exact ih _ (fun c hc => hU c (List.mem_cons_of_mem u hc))
    · rfl

theorem appliedPatchesGo_skip_new (N : List Commit) (X : List Commit) (b : Nat)
    (hN : ∀ c ∈ N, pyTruthy c.plyPatch = false) (hb : N.length ≤ b) :
    appliedPatchesGo (N ++ X) b [] = appliedPatchesGo X (b - N.length) [] := by
  induction N generalizing b with
  | nil => simp
  | cons n N' ih =>
    rw [List.cons_append]
    conv_lhs => unfold appliedPatchesGo
    rw [hN n (List.mem_cons_self n N')]
    simp only [Bool.false_eq_true, if_false, List.isEmpty_nil, Bool.not_true,
      if_false]
    rw [if_pos (by simp at hb; omega)]
    have harith : b - 1 - N'.length = b - (n :: N').length := by
      simp only [List.length_cons]
      omega
    rw [ih (b - 1) (fun c hc => hN c (List.mem_cons_of_mem n hc))
        (by simp at hb; omega), harith]

/-- **C6.** When the history splits into regions `N ++ A ++ U` — new
(unannotated), applied (annotated), upstream (unannotated) — and `N` holds
at most `new_upper_bound` commits, `_applied_patches` returns exactly the
`(hash, patch-name)` pairs of `A`, newest first, stopping at the first
unannotated commit after `A`; and (second conjunct) whenever no annotated
commit occurs among the first `new_upper_bound + 1` commits, it returns the
empty list. -/
theorem applied_patches_regions (N A U : List Commit) (bound : Nat)
    (hN : ∀ c ∈ N, pyTruthy c.plyPatch = false)
    (hA : ∀ c ∈ A, pyTruthy c.plyPatch = true)
    (hU : ∀ c ∈ U, pyTruthy c.plyPatch = false)
    (hb : N.length ≤ bound) :
    appliedPatches (N ++ A ++ U) bound = A.map appliedPair ∧
    ∀ (history : List Commit) (bound' : Nat),
      (∀ c ∈ history.take (bound' + 1), pyTruthy c.plyPatch = false) →
      appliedPatches history bound' = [] := by
  constructor
  · unfold appliedPatches
    rw [List.append_assoc, appliedPatchesGo_skip_new N (A ++ U) bound hN hb]
    cases A with
    | nil =>
      simp only [List.nil_append, List.map_nil]
      exact appliedPatchesGo_all_unannotated U _ hU
    | cons a A' =>
      rw [appliedPatchesGo_annotated (a :: A') U _ [] hA hU (Or.inr (by simp))]
      simp
  · intro history bound' hh
    unfold appliedPatches
    clear hN hA hU hb
    induction history generalizing bound' with
    | nil => rfl
    | cons c rest ih =>
      unfold appliedPatchesGo
      have hc : pyTruthy c.plyPatch = false := by
        apply hh
        simp [List.take_succ_cons]
      rw [hc]
      simp only [Bool.false_eq_true, if_false, List.isEmpty_nil, Bool.not_true,
        if_false]
      split
      · next hb' =>
        apply ih
        intro d hd
        have heq : bound' - 1 + 1 = bound' := by omega
        rw [heq] at hd
        apply hh
        rw [List.take_succ_cons]
        exact List.mem_cons_of_mem c hd
      · rfl

/-- Witness for C6 on a concrete three-region history. -/
theorem applied_patches_regions_witness :
    appliedPatches
        [⟨"n1", none⟩, ⟨"a1", some "p1.patch"⟩, ⟨"a2", some "p2.patch"⟩,
         ⟨"u1", none⟩] 50 =
      [("a1", "p1.patch"), ("a2", "p2.patch")] ∧
    appliedPatches [⟨"n1", none⟩, ⟨"n2", none⟩] 1 = [] := by
  have h := applied_patches_regions [⟨"n1", none⟩]
    [⟨"a1", some "p1.patch"⟩, ⟨"a2", some "p2.patch"⟩] [⟨"u1", none⟩] 50
    (by decide) (by decide) (by decide) (by decide)
  exact ⟨h.1, h.2 [⟨"n1", none⟩, ⟨"n2", none⟩] 1 (by decide)⟩

/-! ## C5: the `added` classification of `_determine_what_changed` -/

theorem mem_classifySources (fs md : String → Bool) (ss : List String)
    (a0 u0 s0 : List String) (n : String) :
    (n ∈ (classifySources fs md ss (a0, u0, s0)).1 ↔
      n ∈ a0 ∨ (n ∈ ss.map basename ∧ fs n = false)) ∧
    (n ∈ (classifySources fs md ss (a0, u0, s0)).2.1 ↔
      n ∈ u0 ∨ (n ∈ ss.map basename ∧ fs n = true ∧ md n = true)) ∧
    (n ∈ (classifySources fs md ss (a0, u0, s0)).2.2 ↔
      n ∈ s0 ∨ (n ∈ ss.map basename ∧ fs n = true ∧ md n = false)) := by
  induction ss generalizing a0 u0 s0 with
  | nil => simp [classifySources]
  | cons s ss ih =>
    unfold classifySources
    by_cases hn : n = basename s
    · subst hn
      by_cases hfs : fs (basename s) = true
      · by_cases hmd : md (basename s) = true
        · rw [if_pos hfs, if_pos hmd]
          simp [ih, mem_pySetAdd, hfs, hmd]
        · rw [if_pos hfs, if_neg hmd]
          simp only [Bool.not_eq_true] at hmd
          simp [ih, mem_pySetAdd, hfs, hmd]
      · rw [if_neg hfs]
        simp only [Bool.not_eq_true] at hfs
        simp [ih, mem_pySetAdd, hfs]
    · by_cases hfs : fs (basename s) = true
      · by_cases hmd : md (basename s) = true
        · rw [if_pos hfs, if_pos hmd]
          simp [ih, mem_pySetAdd, hn]
        · rw [if_pos hfs, if_neg hmd]
          simp [ih, mem_pySetAdd, hn]
      · rw [if_neg hfs]
        simp [ih, mem_pySetAdd, hn]

/-- **C5, counterexample.** The claim says a source is classified `added`
iff its name is **not an entry of the series**.  The code instead tests
whether the *patch file* exists: with a stored file `a.patch` present on
disk but absent from the series, the source `a.patch` is classified
`updated`, not `added`, even though its name is not in the series. -/
theorem determine_added_counterexample :
    ("a.patch" : String) ∉ ([] : List String) ∧
    determineWhatChanged (fun n => n = "a.patch") (fun _ => true)
        ["a.patch"] none [] =
      ([], ["a.patch"], [], []) := by
  decide

/-- **C5, amended.** A source is classified `added` iff its patch file does
not already exist in the patch repo (`path_exists_case_sensitive` on the
destination path); only when patch files and series entries agree on the
source names (file exists iff name in series) does this coincide with the
claimed "name not in series", and then an in-series source is classified
`updated` or `skipped` and never `added`. -/
theorem determine_what_changed_added_iff (fs md : String → Bool)
    (sourcePaths : List String) (po : Option String) (entries : List String)
    (n : String) :
    (n ∈ (determineWhatChanged fs md sourcePaths po entries).1 ↔
      n ∈ sourcePaths.map basename ∧ fs n = false) ∧
    ((∀ m ∈ sourcePaths.map basename, (fs m = true ↔ m ∈ entries)) →
      (n ∈ (determineWhatChanged fs md sourcePaths po entries).1 ↔
        n ∈ sourcePaths.map basename ∧ n ∉ entries) ∧
      (n ∈ sourcePaths.map basename → n ∈ entries →
        n ∉ (determineWhatChanged fs md sourcePaths po entries).1 ∧
        (n ∈ (determineWhatChanged fs md sourcePaths po entries).2.1 ∨
          n ∈ (determineWhatChanged fs md sourcePaths po entries).2.2.1))) := by
  have hcls := mem_classifySources fs md sourcePaths [] [] [] n
  have hadded : (determineWhatChanged fs md sourcePaths po entries).1 =
      (classifySources fs md sourcePaths ([], [], [])).1 := rfl
  have hupd : (determineWhatChanged fs md sourcePaths po entries).2.1 =
      (classifySources fs md sourcePaths ([], [], [])).2.1 := rfl
  have hmemadd : n ∈ (determineWhatChanged fs md sourcePaths po entries).1 ↔
      n ∈ sourcePaths.map basename ∧ fs n = false := by
    rw [hadded]
    simpa using hcls.1
  refine ⟨hmemadd, fun hagree => ⟨?_, fun hnn hne => ⟨?_, ?_⟩⟩⟩
  · rw [hmemadd]
    constructor
    · rintro ⟨h1, h2⟩
      refine ⟨h1, fun hmem => ?_⟩
      rw [← hagree n h1] at hmem
      rw [h2] at hmem
      exact absurd hmem (by decide)
    · rintro ⟨h1, h2⟩
      refine ⟨h1, ?_⟩
      rcases hb : fs n with _ | _
      · rfl
      · exact absurd ((hagree n h1).mp hb) h2
  · rw [hmemadd]
    rintro ⟨-, h2⟩
    rw [(hagree n hnn).mpr hne] at h2
    exact absurd h2 (by decide)
  · have hfs : fs n = true := (hagree n hnn).mpr hne
    rcases hb : md n with _ | _
    · right
      have hsk : n ∈ (classifySources fs md sourcePaths ([], [], [])).2.2 := by
        rw [(hcls.2.2)]
        exact Or.inr ⟨hnn, hfs, hb⟩
      show n ∈ (determineWhatChanged fs md sourcePaths po entries).2.2.1
      unfold determineWhatChanged
      rcases po with _ | p
      · simpa using hsk
      · simpa using mem_foldl_pySetAdd.mpr (Or.inl hsk)
    · left
      rw [hupd]
      exact (hcls.2.1).mpr (Or.inr ⟨hnn, hfs, hb⟩)

/-! ## C7: series-file round trip -/

theorem dropWhile_eq_self_of_strip_eq {e : Line} (hs : pyStrip e = e) :
    e.dropWhile pyIsSpace = e := by
  have h1 : (e.dropWhile pyIsSpace).length ≤ e.length :=
    (List.dropWhile_suffix pyIsSpace).sublist.length_le
  have h2 : (((e.dropWhile pyIsSpace).reverse.dropWhile pyIsSpace).reverse).length ≤
      (e.dropWhile pyIsSpace).length := by
    rw [List.length_reverse]
    have := (List.dropWhile_suffix (l := (e.dropWhile pyIsSpace).reverse)
      pyIsSpace).sublist.length_le
    simpa using this
  have hlen : (e.dropWhile pyIsSpace).length = e.length := by
    have := congrArg List.length hs
    unfold pyStrip at this
    omega
  exact (List.dropWhile_suffix pyIsSpace).eq_of_length hlen

theorem reverse_dropWhile_eq_self_of_strip_eq {e : Line} (hs : pyStrip e = e) :
    e.reverse.dropWhile pyIsSpace = e.reverse := by
  have hd := dropWhile_eq_self_of_strip_eq hs
  unfold pyStrip at hs
  rw [hd] at hs
  have := congrArg List.reverse hs
  simpa using this

theorem pyStrip_append_newline (e : Line) (he : e ≠ []) (hs : pyStrip e = e) :
    pyStrip (e ++ ['\n']) = e := by
  have hd := dropWhile_eq_self_of_strip_eq hs
  have hr := reverse_dropWhile_eq_self_of_strip_eq hs
  rcases e with _ | ⟨c, e'⟩
  · exact absurd rfl he
  · have hc : pyIsSpace c = false := by
      rcases hpc : pyIsSpace c with _ | _
      · rfl
      · rw [List.dropWhile_cons, if_pos hpc] at hd
        have hlen := congrArg List.length hd
        have hle : (List.dropWhile pyIsSpace e').length ≤ e'.length :=
          (List.dropWhile_suffix pyIsSpace).sublist.length_le
        simp at hlen
        omega
    unfold pyStrip
    rw [List.cons_append, List.dropWhile_cons, hc]
    simp only [Bool.false_eq_true, if_false]
    rw [show ((c :: (e' ++ ['\n'])).reverse) = '\n' :: (c :: e').reverse by simp]
    rw [List.dropWhile_cons]
    rw [if_pos (by decide)]
    rw [hr]
    simp

theorem splitFileLinesAux_line (e rest : List Char) (acc : List Char)
    (he : '\n' ∉ e) :
    splitFileLinesAux (e ++ '\n' :: rest) acc =
      ((acc.reverse ++ e) ++ ['\n']) :: splitFileLinesAux rest [] := by
  induction e generalizing acc with
  | nil => simp [splitFileLinesAux]
  | cons c e ih =>
    have hc : ¬(c = '\n') := fun h => he (h ▸ List.mem_cons_self c e)
    rw [List.cons_append]
    conv_lhs => unfold splitFileLinesAux
    rw [if_neg hc]
    rw [ih (c :: acc) (fun h => he (List.mem_cons_of_mem c h))]
    simp

theorem splitFileLines_write (entries : List Line)
    (h : ∀ e ∈ entries, '\n' ∉ e) :
    splitFileLines (writeSeriesFile entries) =
      entries.map (fun e => e ++ ['\n']) := by
  induction entries with
  | nil => rfl
  | cons e es ih =>
    unfold writeSeriesFile at *
    rw [List.map_cons, List.flatten_cons]
    unfold splitFileLines
    rw [List.append_assoc, List.singleton_append,
      splitFileLinesAux_line _ _ _ (h e (List.mem_cons_self e es))]
    congr 1
    exact ih (fun x hx => h x (List.mem_cons_of_mem e hx))

/-- **C7.** Series-file round trip: writing a well-formed entry list (each
entry non-blank, newline-free and already stripped — exactly what
`_non_recursive_series` produces) and reading it back with
`_non_recursive_series` yields the same entries in order, and rewriting the
reread contents reproduces the file byte for byte: the mutate-with-identity
rewrite is the identity on files in normal form (one name per line,
newline-terminated, no blanks). -/
theorem series_file_round_trip (entries : List Line)
    (h : ∀ e ∈ entries, e ≠ [] ∧ '\n' ∉ e ∧ pyStrip e = e) :
    nonRecursiveSeries (writeSeriesFile entries) = entries ∧
    writeSeriesFile (nonRecursiveSeries (writeSeriesFile entries)) =
      writeSeriesFile entries := by
  have hread : nonRecursiveSeries (writeSeriesFile entries) = entries := by
    unfold nonRecursiveSeries
    rw [splitFileLines_write entries (fun e he => (h e he).2.1)]
    rw [List.map_map]
    have hmap : entries.map (pyStrip ∘ fun e => e ++ ['\n']) = entries := by
      calc entries.map (pyStrip ∘ fun e => e ++ ['\n'])
          = entries.map id := by
            apply List.map_congr_left
            intro a ha
            rcases h a ha with ⟨ha1, -, ha3⟩
            exact pyStrip_append_newline a ha1 ha3
        _ = entries := List.map_id entries
    rw [hmap]
    rw [List.filter_eq_self]
    intro a ha
    rcases h a ha with ⟨ha1, -, -⟩
    simpa using ha1
  exact ⟨hread, by rw [hread]⟩

/-- Witness for C7 on a concrete two-entry series. -/
theorem series_file_round_trip_witness :
    nonRecursiveSeries (writeSeriesFile ["a.patch".data, "sub/b.patch".data]) =
      ["a.patch".data, "sub/b.patch".data] ∧
    writeSeriesFile
        (nonRecursiveSeries
          (writeSeriesFile ["a.patch".data, "sub/b.patch".data])) =
      writeSeriesFile ["a.patch".data, "sub/b.patch".data] :=
  series_file_round_trip ["a.patch".data, "sub/b.patch".data] (by decide)

/-- Witness for C5: with patch files and series in agreement, an in-series
source is classified updated/skipped, never added. -/
theorem determine_what_changed_added_iff_witness :
    "a.patch" ∉ (determineWhatChanged (fun n => n = "a.patch") (fun _ => true)
        ["d/a.patch", "d/b.patch"] none ["a.patch"]).1 ∧
    ("a.patch" ∈ (determineWhatChanged (fun n => n = "a.patch") (fun _ => true)
        ["d/a.patch", "d/b.patch"] none ["a.patch"]).2.1 ∨
      "a.patch" ∈ (determineWhatChanged (fun n => n = "a.patch") (fun _ => true)
        ["d/a.patch", "d/b.patch"] none ["a.patch"]).2.2.1) :=
  ((determine_what_changed_added_iff (fun n => n = "a.patch") (fun _ => true)
      ["d/a.patch", "d/b.patch"] none ["a.patch"] "a.patch").2
    (by decide)).2 (by decide) (by decide)

/-! ## C1: the series splice performed by `sync_patches` -/

theorem removeAll_eq_filter (rs : List String) :
    ∀ (entries : List String), entries.Nodup → rs.Nodup →
    (∀ r ∈ rs, r ∈ entries) →
    removeAll entries rs = some (entries.filter (fun x => x ∉ rs)) := by
  induction rs with
  | nil =>
    intro entries _ _ _
    simp [removeAll]
  | cons r rs ih =>
    intro entries hE hrs hsub
    unfold removeAll pyRemove
    rw [if_pos (hsub r (List.mem_cons_self r rs))]
    rw [Option.some_bind]
    rw [ih (entries.erase r) (hE.erase r) (List.Nodup.of_cons hrs)
        (fun x hx => (hE.mem_erase_iff).mpr
          ⟨fun hxr => (List.nodup_cons.mp hrs).1 (hxr ▸ hx),
           hsub x (List.mem_cons_of_mem r hx)⟩)]
    congr 1
    rw [hE.erase_eq_filter r, List.filter_filter]
    apply List.filter_congr
    intro x _
    by_cases hxr : x = r
    · subst hxr
      simp
    · simp [hxr]

theorem takeThroughParent_eq (p : String) (entries : List String)
    (hp : p ∈ entries) :
    takeThroughParent p entries =
      entries.takeWhile (fun x => x ≠ p) ++ [p] := by
  induction entries with
  | nil => cases hp
  | cons e es ih =>
    unfold takeThroughParent
    by_cases he : e = p
    · subst he
      simp [List.takeWhile_cons]
    · rw [if_neg he, List.takeWhile_cons]
      have : (decide ¬(e = p)) = true := by simp [he]
      simp only [this, if_true]
      rw [ih ((List.mem_cons.mp hp).resolve_left (fun h => he h.symm))]
      simp

theorem dropWhile_ne_eq_cons (p : String) (entries : List String)
    (hp : p ∈ entries) :
    entries.dropWhile (fun x => x ≠ p) =
      p :: (entries.dropWhile (fun x => x ≠ p)).tail := by
  induction entries with
  | nil => cases hp
  | cons e es ih =>
    rw [List.dropWhile_cons]
    by_cases he : e = p
    · subst he
      simp
    · have : (decide ¬(e = p)) = true := by simp [he]
      rw [if_pos this]
      exact ih ((List.mem_cons.mp hp).resolve_left (fun h => he h.symm))

theorem mem_drop_of_mem_drop_erase [DecidableEq α] (a x : α) :
    ∀ (l : List α) (n : Nat), x ∈ (l.erase a).drop n → x ∈ l.drop n := by
  intro l
  induction l with
  | nil => intro n h; simp [List.erase_nil] at h
  | cons b l' ih =>
    intro n h
    by_cases hba : b = a
    · subst hba
      rw [List.erase_cons_head] at h
      cases n with
      | zero => exact List.mem_cons_of_mem b h
      | succ m =>
        rw [List.drop_succ_cons]
        have : l'.drop (m + 1) = (l'.drop m).drop 1 := by
          rw [List.drop_drop]
        rw [this] at h
        exact List.drop_subset 1 (l'.drop m) h
    · rw [List.erase_cons_tail (by simpa using hba)] at h
      cases n with
      | zero =>
        rcases List.mem_cons.mp h with h1 | h1
        · exact h1 ▸ List.mem_cons_self b l'
        · exact List.mem_cons_of_mem b (List.erase_subset a l' h1)
      | succ m =>
        rw [List.drop_succ_cons] at h ⊢
        exact ih m h

theorem insertIdx_eq_take_cons_drop (a : α) :
    ∀ (q : Nat) (l : List α), q ≤ l.length →
    List.insertIdx q a l = l.take q ++ a :: l.drop q := by
  intro q
  induction q with
  | zero => intro l _; simp
  | succ q ih =>
    intro l hq
    cases l with
    | nil => simp at hq
    | cons b l' =>
      rw [List.insertIdx_succ_cons, ih l' (by simpa using hq)]
      simp

theorem spliceLoop_spec (sourcePaths : List String) :
    ∀ (pos : Nat) (e : List String), e.Nodup →
    (sourcePaths.map basename).Nodup →
    (∀ x ∈ e.drop pos, x ∈ sourcePaths.map basename) →
    spliceLoop pos sourcePaths e =
      e.filter (fun x => x ∉ sourcePaths.map basename) ++
        sourcePaths.map basename := by
  induction sourcePaths with
  | nil =>
    intro pos e hE _ _
    unfold spliceLoop
    simp
  | cons s ss ih =>
    intro pos e hE hN hdrop
    rw [List.map_cons] at hN hdrop ⊢
    have hnotin : basename s ∉ ss.map basename := (List.nodup_cons.mp hN).1
    have hnsnd : (ss.map basename).Nodup := (List.nodup_cons.mp hN).2
    have hstep : spliceLoop pos (s :: ss) e =
        spliceLoop (pos + 1) ss
          (pyInsert (if basename s ∈ e then e.erase (basename s) else e)
            pos (basename s)) := rfl
    rw [hstep]
    set n := basename s with hn
    set ns := ss.map basename with hns
    set e' := if n ∈ e then e.erase n else e with he'
    have hE' : e'.Nodup := by
      rw [he']
      by_cases hmem : n ∈ e
      · rw [if_pos hmem]; exact hE.erase n
      · rw [if_neg hmem]; exact hE
    have hnIn : n ∉ e' := by
      by_cases hmem : n ∈ e
      · rw [he', if_pos hmem]
        exact fun hcon => ((hE.mem_erase_iff).mp hcon).1 rfl
      · rw [he', if_neg hmem]; exact hmem
    have hsub' : ∀ x ∈ e'.drop pos, x ∈ ns := by
      intro x hx
      have hxe : x ∈ e.drop pos := by
        by_cases hmem : n ∈ e
        · rw [he', if_pos hmem] at hx
          exact mem_drop_of_mem_drop_erase n x e pos hx
        · rw [he', if_neg hmem] at hx; exact hx
      have hxe' : x ∈ e' := List.drop_subset pos e' hx
      rcases List.mem_cons.mp (hdrop x hxe) with h1 | h1
      · exact absurd (h1 ▸ hxe') hnIn
      · exact h1
    set q := min pos e'.length with hq
    have hqle : q ≤ e'.length := min_le_right _ _
    have hqpos : q ≤ pos := min_le_left _ _
    have hexp : pyInsert e' pos n = e'.take q ++ n :: e'.drop q := by
      unfold pyInsert
      exact insertIdx_eq_take_cons_drop n q e' hqle
    rw [hexp]
    have hdropq : ∀ x ∈ e'.drop q, x ∈ ns := by
      intro x hx
      by_cases hc : pos ≤ e'.length
      · rw [hq, min_eq_left hc] at hx
        exact hsub' x hx
      · rw [hq, min_eq_right (le_of_not_le hc)] at hx
        rw [List.drop_length] at hx
        cases hx
    have hE'' : (e'.take q ++ n :: e'.drop q).Nodup := by
      have hcons : (n :: (e'.take q ++ e'.drop q)).Nodup := by
        rw [List.take_append_drop]
        exact List.nodup_cons.mpr ⟨hnIn, hE'⟩
      exact (List.perm_middle.symm).nodup hcons
    have hdrop'' : ∀ x ∈ (e'.take q ++ n :: e'.drop q).drop (pos + 1),
        x ∈ ns := by
      intro x hx
      by_cases hc : pos ≤ e'.length
      · have hqq : q = pos := by rw [hq, min_eq_left hc]
        have hshape : e'.take q ++ n :: e'.drop q =
            (e'.take q ++ [n]) ++ e'.drop q := by simp
        have hlen : (e'.take q ++ [n]).length = pos + 1 := by
          simp [List.length_take]
          omega
        rw [hshape, ← hlen, List.drop_left] at hx
        exact hdropq x hx
      · have hqq : q = e'.length := by rw [hq, min_eq_right (le_of_not_le hc)]
        rw [hqq, List.take_length, List.drop_length] at hx
        have hlen2 : (e' ++ [n]).length ≤ pos + 1 := by
          simp
          omega
        rw [List.drop_eq_nil_of_le hlen2] at hx
        cases hx
    rw [ih (pos + 1) (e'.take q ++ n :: e'.drop q) hE'' hnsnd hdrop'']
    have hfil1 : (e'.drop q).filter (fun x => x ∉ ns) = [] := by
      rw [List.filter_eq_nil_iff]
      intro x hx
      simp [hdropq x hx]
    have hfil2 : (e'.take q).filter (fun x => x ∉ ns) =
        e'.filter (fun x => x ∉ ns) := by
      conv_rhs => rw [← List.take_append_drop q e']
      rw [List.filter_append, hfil1, List.append_nil]
    have hfil3 : e'.filter (fun x => x ∉ ns) =
        e.filter (fun x => x ∉ n :: ns) := by
      by_cases hmem : n ∈ e
      · rw [he', if_pos hmem, hE.erase_eq_filter, List.filter_filter]
        apply List.filter_congr
        intro x _
        by_cases hxn : x = n
        · subst hxn; simp
        · simp [hxn]
      · rw [he', if_neg hmem]
        apply List.filter_congr
        intro x hxe
        have hxn : ¬(x = n) := fun h => hmem (h ▸ hxe)
        simp [hxn]
    rw [List.filter_append, List.filter_cons, hfil1, hfil2, hfil3]
    have hkeep : (decide (n ∉ ns)) = true := by simp [hnotin]
    rw [hkeep]
    simp

theorem mem_classified_union (fs md : String → Bool) (ss : List String)
    (x : String) :
    (x ∈ (classifySources fs md ss ([], [], [])).1 ∨
      x ∈ (classifySources fs md ss ([], [], [])).2.1 ∨
      x ∈ (classifySources fs md ss ([], [], [])).2.2) ↔
      x ∈ ss.map basename := by
  have h := mem_classifySources fs md ss [] [] [] x
  rw [h.1, h.2.1, h.2.2]
  simp only [List.not_mem_nil, false_or]
  constructor
  · rintro (⟨h1, -⟩ | ⟨h1, -⟩ | ⟨h1, -⟩) <;> exact h1
  · intro hx
    rcases hf : fs x with _ | _
    · exact Or.inl ⟨hx, rfl⟩
    · rcases hm : md x with _ | _
      · exact Or.inr (Or.inr ⟨hx, rfl, rfl⟩)
      · exact Or.inr (Or.inl ⟨hx, rfl, rfl⟩)

theorem mem_removed_iff (fs md : String → Bool) (sourcePaths : List String)
    (po : Option String) (entries : List String) (x : String)
    (hE : entries.Nodup) :
    x ∈ (determineWhatChanged fs md sourcePaths po entries).2.2.2 ↔
      (x ∈ entries ∧ x ∉ sourcePaths.map basename ∧
        ∀ p, po = some p → x ∉ takeThroughParent p entries) := by
  have hu := mem_classified_union fs md sourcePaths x
  rcases po with _ | p
  · have hdefR : (determineWhatChanged fs md sourcePaths none entries).2.2.2 =
        entries.dedup.filter (fun y =>
          !(decide (y ∈ (classifySources fs md sourcePaths ([], [], [])).1)) &&
          !(decide (y ∈ (classifySources fs md sourcePaths ([], [], [])).2.1)) &&
          !(decide (y ∈ (classifySources fs md sourcePaths ([], [], [])).2.2))) :=
      rfl
    rw [hdefR, hE.dedup, List.mem_filter]
    simp only [Bool.and_eq_true, Bool.not_eq_true', decide_eq_false_iff_not]
    constructor
    · rintro ⟨h1, ⟨h2, h3⟩, h4⟩
      refine ⟨h1, fun hx => ?_, by simp⟩
      rw [← hu] at hx
      rcases hx with hx | hx | hx <;> [exact h2 hx; exact h3 hx; exact h4 hx]
    · rintro ⟨h1, h2, -⟩
      rw [← hu] at h2
      push_neg at h2
      exact ⟨h1, ⟨h2.1, h2.2.1⟩, h2.2.2⟩
  · have hdefR : (determineWhatChanged fs md sourcePaths (some p) entries).2.2.2 =
        entries.dedup.filter (fun y =>
          !(decide (y ∈ (classifySources fs md sourcePaths ([], [], [])).1)) &&
          !(decide (y ∈ (classifySources fs md sourcePaths ([], [], [])).2.1)) &&
          !(decide (y ∈ (takeThroughParent p entries).foldl pySetAdd
              (classifySources fs md sourcePaths ([], [], [])).2.2))) :=
      rfl
    rw [hdefR, hE.dedup, List.mem_filter]
    simp only [Bool.and_eq_true, Bool.not_eq_true', decide_eq_false_iff_not,
      mem_foldl_pySetAdd]
    constructor
    · rintro ⟨h1, ⟨h2, h3⟩, h4⟩
      push_neg at h4
      refine ⟨h1, fun hx => ?_, fun q hq => by cases hq; exact h4.2⟩
      rw [← hu] at hx
      rcases hx with hx | hx | hx <;> [exact h2 hx; exact h3 hx; exact h4.1 hx]
    · rintro ⟨h1, h2, h3⟩
      rw [← hu] at h2
      push_neg at h2
      exact ⟨h1, ⟨h2.1, h2.2.1⟩, fun hx =>
        (hx.elim h2.2.2 (h3 p rfl))⟩

/-- **C1.** `sync_patches(source_paths, parent_patch_name)` on a
duplicate-free flat series containing `parent_patch_name` (with the source
basenames distinct and distinct from the parent) rewrites the series to:
the entries before the parent that are not themselves source basenames,
then the parent, then the source basenames as a contiguous block in source
order — i.e. the block sits immediately after the parent (at position 0
when the parent is null, where the whole series becomes the block), names
already present having been removed from their old position; each source
basename then occurs exactly once in the series. -/
theorem sync_patches_series_spliced (fs md : String → Bool)
    (sourcePaths entries : List String) (po : Option String)
    (hE : entries.Nodup) (hN : (sourcePaths.map basename).Nodup)
    (hpo : ∀ q, po = some q → q ∈ entries ∧ q ∉ sourcePaths.map basename) :
    syncPatchesSeries fs md sourcePaths po entries =
      some (expectedSeries po entries (sourcePaths.map basename)) ∧
    ∀ n ∈ sourcePaths.map basename,
      (expectedSeries po entries (sourcePaths.map basename)).count n = 1 := by
  have hRnodup :
      ((determineWhatChanged fs md sourcePaths po entries).2.2.2).Nodup := by
    have hdefR : (determineWhatChanged fs md sourcePaths po entries).2.2.2 =
        entries.dedup.filter (fun y =>
          !(decide (y ∈ (classifySources fs md sourcePaths ([], [], [])).1)) &&
          !(decide (y ∈ (classifySources fs md sourcePaths ([], [], [])).2.1)) &&
          !(decide (y ∈ (match po with
            | none => (classifySources fs md sourcePaths ([], [], [])).2.2
            | some q => (takeThroughParent q entries).foldl pySetAdd
                (classifySources fs md sourcePaths ([], [], [])).2.2)))) := rfl
    rw [hdefR]
    exact List.Nodup.filter _ (List.nodup_dedup entries)
  have hRsub :
      ∀ r ∈ (determineWhatChanged fs md sourcePaths po entries).2.2.2,
        r ∈ entries :=
    fun r hr => ((mem_removed_iff fs md sourcePaths po entries r hE).mp hr).1
  have hRA := removeAll_eq_filter _ entries hE hRnodup hRsub
  rcases po with _ | pn
  · have hmemR := fun x => mem_removed_iff fs md sourcePaths none entries x hE
    have he1 : entries.filter
          (fun x => x ∉ (determineWhatChanged fs md sourcePaths none entries).2.2.2) =
        entries.filter (fun x => x ∈ sourcePaths.map basename) := by
      apply List.filter_congr
      intro x hx
      by_cases hxn : x ∈ sourcePaths.map basename
      · have hxR : x ∉ (determineWhatChanged fs md sourcePaths none entries).2.2.2 :=
          fun hq => ((hmemR x).mp hq).2.1 hxn
        simp [hxR, hxn]
      · have hxR : x ∈ (determineWhatChanged fs md sourcePaths none entries).2.2.2 :=
          (hmemR x).mpr ⟨hx, hxn, by simp⟩
        simp [hxR, hxn]
    have hsplice := spliceLoop_spec sourcePaths 0
        (entries.filter (fun x => x ∈ sourcePaths.map basename))
        (hE.filter _) hN
        (by intro x hx
            rw [List.drop_zero] at hx
            exact of_decide_eq_true (List.mem_filter.mp hx).2)
    constructor
    · have hdef : syncPatchesSeries fs md sourcePaths none entries =
          (removeAll entries
              (determineWhatChanged fs md sourcePaths none entries).2.2.2).bind
            (fun e1 => some (spliceLoop 0 sourcePaths e1)) := rfl
      rw [hdef, hRA, Option.some_bind, he1, hsplice]
      have hnil : (entries.filter
            (fun x => x ∈ sourcePaths.map basename)).filter
          (fun x => x ∉ sourcePaths.map basename) = [] := by
        rw [List.filter_eq_nil_iff]
        intro x hx
        simp [of_decide_eq_true (List.mem_filter.mp hx).2]
      rw [hnil]
      rfl
    · intro n hn
      show (sourcePaths.map basename).count n = 1
      exact List.count_eq_one_of_mem hN hn
  · obtain ⟨hpIn, hpNot⟩ := hpo pn rfl
    have hmemR := fun x => mem_removed_iff fs md sourcePaths (some pn) entries x hE
    have hdef : syncPatchesSeries fs md sourcePaths (some pn) entries =
        (removeAll entries
            (determineWhatChanged fs md sourcePaths (some pn) entries).2.2.2).bind
          (fun e1 => ((pyIndex e1 pn).map (· + 1)).bind
            (fun base => some (spliceLoop base sourcePaths e1))) := rfl
    set R := (determineWhatChanged fs md sourcePaths (some pn) entries).2.2.2
      with hRdef
    have htkp : takeThroughParent pn entries =
        entries.takeWhile (fun x => x ≠ pn) ++ [pn] :=
      takeThroughParent_eq pn entries hpIn
    have hsplit : entries = entries.takeWhile (fun x => x ≠ pn) ++
        pn :: (entries.dropWhile (fun x => x ≠ pn)).tail := by
      conv_lhs => rw [← List.takeWhile_append_dropWhile (fun x => x ≠ pn) entries,
        dropWhile_ne_eq_cons pn entries hpIn]
    set P := entries.takeWhile (fun x => x ≠ pn) with hP
    set T := (entries.dropWhile (fun x => x ≠ pn)).tail with hT
    have hE2 : (P ++ pn :: T).Nodup := hsplit ▸ hE
    have hpP : pn ∉ P := fun hq => by
      have := List.mem_takeWhile_imp hq
      simp at this
    have hdisj : ∀ x ∈ T, x ∉ P ∧ x ≠ pn := by
      intro x hx
      rcases List.nodup_append.mp hE2 with ⟨-, hnd2, hdis⟩
      constructor
      · exact fun hxP => hdis hxP (List.mem_cons_of_mem pn hx)
      · exact fun hxpn => (List.nodup_cons.mp hnd2).1 (hxpn ▸ hx)
    have hTmemE : ∀ x ∈ T, x ∈ entries := by
      intro x hx
      rw [hsplit]
      exact List.mem_append_right P (List.mem_cons_of_mem pn hx)
    have hPmemTk : ∀ x ∈ P, x ∈ takeThroughParent pn entries := by
      intro x hx
      rw [htkp]
      exact List.mem_append_left [pn] hx
    have he1 : entries.filter (fun x => x ∉ R) =
        P ++ pn :: (T.filter (fun x => x ∈ sourcePaths.map basename)) := by
      conv_lhs => rw [hsplit]
      rw [List.filter_append, List.filter_cons]
      have hPf : P.filter (fun x => x ∉ R) = P := by
        rw [List.filter_eq_self]
        intro x hx
        have hxR : x ∉ R :=
          fun hq => ((hmemR x).mp hq).2.2 pn rfl (hPmemTk x hx)
        simp [hxR]
      have hpnR : pn ∉ R := by
        intro hq
        refine ((hmemR pn).mp hq).2.2 pn rfl ?_
        rw [htkp]
        exact List.mem_append_right P (List.mem_singleton_self pn)
      have hTf : T.filter (fun x => x ∉ R) =
          T.filter (fun x => x ∈ sourcePaths.map basename) := by
        apply List.filter_congr
        intro x hx
        have hxtk : x ∉ takeThroughParent pn entries := by
          rw [htkp]
          intro hq
          rcases List.mem_append.mp hq with hq1 | hq1
          · exact (hdisj x hx).1 hq1
          · exact (hdisj x hx).2 (List.mem_singleton.mp hq1)
        by_cases hxn : x ∈ sourcePaths.map basename
        · have hxR : x ∉ R := fun hq => ((hmemR x).mp hq).2.1 hxn
          simp [hxR, hxn]
        · have hxR : x ∈ R :=
            (hmemR x).mpr ⟨hTmemE x hx, hxn, fun q hq => by cases hq; exact hxtk⟩
          simp [hxR, hxn]
      rw [hPf, hTf, if_pos (by simp [hpnR])]
    have hsubTf : (pn :: T.filter (fun x => x ∈ sourcePaths.map basename)).Sublist
        (pn :: T) := List.Sublist.cons₂ pn (List.filter_sublist T)
    have hE3 : (P ++ pn :: T.filter (fun x => x ∈ sourcePaths.map basename)).Nodup :=
      ((hsubTf.append_left P).nodup) hE2
    have hidx : pyIndex
        (P ++ pn :: T.filter (fun x => x ∈ sourcePaths.map basename)) pn =
        some P.length := by
      unfold pyIndex
      rw [if_pos (List.mem_append_right P (List.mem_cons_self pn _))]
      rw [List.indexOf_append_of_not_mem hpP, List.indexOf_cons_self]
      rfl
    have hshape : P ++ pn :: T.filter (fun x => x ∈ sourcePaths.map basename) =
        (P ++ [pn]) ++ T.filter (fun x => x ∈ sourcePaths.map basename) := by
      simp
    have hsplice := spliceLoop_spec sourcePaths (P.length + 1)
        (P ++ pn :: T.filter (fun x => x ∈ sourcePaths.map basename))
        hE3 hN
        (by intro x hx
            rw [hshape] at hx
            have hlen : (P ++ [pn]).length = P.length + 1 := by simp
            rw [← hlen, List.drop_left] at hx
            exact of_decide_eq_true (List.mem_filter.mp hx).2)
    constructor
    · rw [hdef, hRA, Option.some_bind, he1, hidx]
      rw [Option.map_some', Option.some_bind]
      rw [hsplice]
      have hTfnil : (T.filter (fun x => x ∈ sourcePaths.map basename)).filter
          (fun x => x ∉ sourcePaths.map basename) = [] := by
        rw [List.filter_eq_nil_iff]
        intro x hx
        simp [of_decide_eq_true (List.mem_filter.mp hx).2]
      rw [List.filter_append, List.filter_cons, hTfnil,
        if_pos (by simp [hpNot])]
      have hexpand : expectedSeries (some pn) entries (sourcePaths.map basename) =
          P.filter (fun x => x ∉ sourcePaths.map basename) ++
            pn :: sourcePaths.map basename := rfl
      rw [hexpand]
      simp
    · intro n hn
      have hexpand : expectedSeries (some pn) entries (sourcePaths.map basename) =
          P.filter (fun m => m ∉ sourcePaths.map basename) ++
            pn :: sourcePaths.map basename := rfl
      rw [hexpand, List.count_append, List.count_cons]
      have h0 : (P.filter (fun m => m ∉ sourcePaths.map basename)).count n = 0 := by
        rw [List.count_eq_zero]
        intro hq
        exact of_decide_eq_true (List.mem_filter.mp hq).2 hn
      have hpnn : (pn == n) = false := by
        rw [beq_eq_false_iff_ne]
        exact fun hq => hpNot (hq ▸ hn)
      rw [h0, hpnn, List.count_eq_one_of_mem hN hn]
      simp
/-- Witness for C1: syncing two new patches after `p.patch` on the series
`a.patch, p.patch, z.patch` yields `a.patch, p.patch, b.patch, c.patch`. -/
theorem sync_patches_series_spliced_witness :
    syncPatchesSeries (fun _ => false) (fun _ => false)
        ["dir/b.patch", "dir/c.patch"] (some "p.patch")
        ["a.patch", "p.patch", "z.patch"] =
      some ["a.patch", "p.patch", "b.patch", "c.patch"] ∧
    (expectedSeries (some "p.patch") ["a.patch", "p.patch", "z.patch"]
        (["dir/b.patch", "dir/c.patch"].map basename)).count "b.patch" = 1 := by
  have h := sync_patches_series_spliced (fun _ => false) (fun _ => false)
    ["dir/b.patch", "dir/c.patch"] ["a.patch", "p.patch", "z.patch"]
    (some "p.patch") (by decide) (by decide)
    (by intro q hq; cases hq; exact ⟨by decide, by decide⟩)
  refine ⟨?_, h.2 "b.patch" (by decide)⟩
  rw [h.1]
  decide

end Ply
